import Mathlib

/-!
Verification of the kilo-style terminal text editor skeleton
(`src/unnamed/part_001`, the furthest-evolved snapshot of the repository).

The C program is shallowly embedded: the global `struct editorConfig E` is
split into explicit state values, byte strings become `List Char`, C `int`
becomes `Int` (logical lengths that are always non-negative become `Nat`),
system calls (`read`, `write`, `realloc`, `ioctl`, `tcgetattr`,
`tcsetattr`) become explicit parameters or returned traces.
-/

namespace Kilo

/-! ## Terminal session (`struct termios`, enableRawMode, disableRawMode) -/

/-- Model of `struct termios`: the four flag words, the two control
characters the program sets (`c_cc[VMIN]`, `c_cc[VTIME]`), and one opaque
field standing for every attribute the program never touches. -/
structure Termios where
  c_iflag : Nat
  c_oflag : Nat
  c_cflag : Nat
  c_lflag : Nat
  cc_vmin : Nat
  cc_vtime : Nat
  rest : Nat
deriving DecidableEq, Repr

/-- `<termios.h>` flag constants (Linux values). -/
def BRKINT : Nat := 0x02
def ICRNL : Nat := 0x100
def INPCK : Nat := 0x10
def ISTRIP : Nat := 0x20
def IXON : Nat := 0x400
def OPOST : Nat := 0x01
def CS8 : Nat := 0x30
def ECHO : Nat := 0x08
def ICANON : Nat := 0x02
def IEXTEN : Nat := 0x8000
def ISIG : Nat := 0x01

/-- `x &= ~m` on a 32-bit `tcflag_t`. -/
def clearBits (x m : Nat) : Nat := x &&& (0xFFFFFFFF ^^^ m)

/-- The derived raw-mode configuration built inside `enableRawMode` from the
captured attributes (`struct termios raw = E.orig_termios;` followed by the
flag mutations and `raw.c_cc[VMIN] = 0; raw.c_cc[VTIME] = 1;`). -/
def rawConfig (t : Termios) : Termios :=
  { c_iflag := clearBits t.c_iflag (BRKINT ||| ICRNL ||| INPCK ||| ISTRIP ||| IXON)
    c_oflag := clearBits t.c_oflag OPOST
    c_cflag := t.c_cflag ||| CS8
    c_lflag := clearBits t.c_lflag (ECHO ||| ICANON ||| IEXTEN ||| ISIG)
    cc_vmin := 0
    cc_vtime := 1
    rest := t.rest }

/-- The terminal-session state: the attribute set currently live on the
terminal device, and the program's saved copy `E.orig_termios`. -/
structure TermState where
  attrs : Termios
  orig_termios : Termios
deriving DecidableEq, Repr

/-- `enableRawMode()`: `tcgetattr` captures the live attributes into
`E.orig_termios` before any mutation, then `tcsetattr` applies the derived
raw configuration. -/
def enableRawMode (s : TermState) : TermState :=
  { orig_termios := s.attrs, attrs := rawConfig s.attrs }

/-- `disableRawMode()`: `tcsetattr(STDIN_FILENO, TCSAFLUSH, &E.orig_termios)`
reapplies the captured attribute set unchanged. -/
def disableRawMode (s : TermState) : TermState :=
  { s with attrs := s.orig_termios }

/-- One enter/leave raw-mode pair. -/
def rawModePair (s : TermState) : TermState := disableRawMode (enableRawMode s)

/-! ## Key reader (`editorReadKey`) -/

/-- The escape character `'\x1b'` (0x1B). -/
def escCh : Char := '\x1b'

/-- `#define CTRL_KEY(letter) ((letter) & 0x1f)`. -/
def CTRL_KEY (c : Char) : Char := Char.ofNat (c.toNat &&& 0x1f)

/-- `editorReadKey()`. The first `read` loop retries timeouts until one
byte `c` arrives; `next` lists the results of the subsequent `read` calls
on the escape path (`some b` = one byte delivered, `none` = the read
returned without a byte). Decoded arrow keys are returned as the editor's
directional event bytes `'j'`/`'k'`/`'l'`/`'h'`. -/
def editorReadKey (c : Char) (next : List (Option Char)) : Char :=
  if c = escCh then
    match next with
    | some s0 :: some s1 :: _ =>
        if s0 = '[' then
          if s1 = 'A' then 'j'
          else if s1 = 'B' then 'k'
          else if s1 = 'C' then 'l'
          else if s1 = 'D' then 'h'
          else escCh
        else escCh
    | _ => escCh
  else c

/-! ## Editor state and input dispatch -/

/-- The cursor and screen-size fields of `struct editorConfig E`
(`int cx, cy; int screenrows; int screencols;`). -/
structure EditorState where
  cx : Int
  cy : Int
  screenrows : Int
  screencols : Int
deriving DecidableEq, Repr

/-- `editorMoveCursor(char key)`: the four unclamped coordinate updates. -/
def editorMoveCursor (key : Char) (E : EditorState) : EditorState :=
  if key = 'h' then { E with cx := E.cx - 1 }
  else if key = 'j' then { E with cy := E.cy - 1 }
  else if key = 'k' then { E with cy := E.cy + 1 }
  else if key = 'l' then { E with cx := E.cx + 1 }
  else E

/-- `"\x1b[2J"` — erase entire display. -/
def eraseDisplaySeq : List Char := "\x1b[2J".data

/-- `"\x1b[H"` — cursor home. -/
def homeSeq : List Char := "\x1b[H".data

/-- Result of one `editorProcessKeypress` dispatch: the new editor state,
the payloads of the `write` calls it performed, and the exit status if it
called `exit`. -/
structure ProcessResult where
  state : EditorState
  writes : List (List Char)
  exited : Option Nat
deriving DecidableEq, Repr

/-- `editorProcessKeypress()` applied to an already-decoded key event. -/
def editorProcessKeypress (c : Char) (E : EditorState) : ProcessResult :=
  if c = CTRL_KEY 'q' then
    { state := E, writes := [eraseDisplaySeq, homeSeq], exited := some 0 }
  else if c = 'h' ∨ c = 'j' ∨ c = 'k' ∨ c = 'l' then
    { state := editorMoveCursor c E, writes := [], exited := none }
  else
    { state := E, writes := [], exited := none }

/-! ## Append buffer (`struct abuf`, abAppend) -/

/-- `struct abuf { char *b; int len; }`: the bytes of the heap block `b`
and the logical length `len` (always non-negative, so modelled as `Nat`). -/
structure Abuf where
  b : List Char
  len : Nat
deriving DecidableEq, Repr

/-- `ABUF_INIT` is `{NULL, 0}`. -/
def ABUF_INIT : Abuf := ⟨[], 0⟩

/-- `abAppend(struct abuf *ab, const char *s, int len)`.
`newBlock` models the result of `realloc(ab->b, ab->len + len)`: `none`
when the allocation fails (`new == NULL`, so the function returns with the
buffer untouched), `some blk` for a block whose first `ab->len` bytes
`realloc` preserved. `memcpy(&new[ab->len], s, len)` then overwrites the
block from offset `ab.len`, and `ab->b`/`ab->len` are updated. -/
def abAppend (newBlock : Option (List Char)) (ab : Abuf) (s : List Char) : Abuf :=
  match newBlock with
  | none => ab
  | some blk =>
      { b := blk.take ab.len ++ s ++ blk.drop (ab.len + s.length)
        len := ab.len + s.length }

/-- The allocation-succeeds behaviour of `abAppend` on a well-formed
buffer, used to thread the render pipeline. -/
def abAppendOk (ab : Abuf) (s : List Char) : Abuf :=
  { b := ab.b ++ s, len := ab.len + s.length }

/-! ## Screen renderer (`editorDrawRows`, `editorRefreshScreen`) -/

/-- `#define RYEDOC_VERSION "0.0.1"`. -/
def RYEDOC_VERSION : String := "0.0.1"

/-- The banner built by
`snprintf(welcome, sizeof(welcome), "RyeRye editor --version %s", RYEDOC_VERSION)`
(29 bytes, far below the 80-byte bound, so never truncated). -/
def welcome : List Char := ("RyeRye editor --version " ++ RYEDOC_VERSION).data

/-- `"\x1b[K"` — erase to end of line, appended after every row. -/
def eraseLineSeq : List Char := "\x1b[K".data

/-- `"\r\n"` — appended after every row but the last. -/
def crlf : List Char := "\r\n".data

/-- The first append of `editorRefreshScreen`: the C literal `"\x1[?25l"`
(6 bytes). The hex escape `\x1` stops before `[`, so the first byte is
0x01, not the escape character 0x1B the comment intends. -/
def hideCursorSeq : List Char := ['\x01', '[', '?', '2', '5', 'l']

/-- `"\x1b[?25h"` — show cursor. -/
def showCursorSeq : List Char := "\x1b[?25h".data

/-- The welcome-banner row: `welcomelen` clipped to the screen width,
`padding = (E.screencols - welcomelen) / 2`, one `"~"` consuming a padding
unit when `padding` is non-zero (`if (padding) { abAppend(ab, "~", 1); padding--; }`),
then `while (padding--) abAppend(ab, " ", 1);`, then the clipped banner. -/
def welcomeRow (cols : Int) : List Char :=
  let wl : Int := if (welcome.length : Int) > cols then cols else (welcome.length : Int)
  let padding : Int := Int.tdiv (cols - wl) 2
  (if padding ≠ 0 then ['~'] else []) ++
    List.replicate (if padding ≠ 0 then (padding - 1).toNat else padding.toNat) ' ' ++
    welcome.take wl.toNat

/-- One iteration of the `editorDrawRows` loop body at row `y`: the banner
row when `y == E.screenrows / 3`, otherwise a `"~"`; then `"\x1b[K"`; then
`"\r\n"` when `y < E.screenrows - 1`. -/
def rowBytes (rows cols : Int) (y : Nat) : List Char :=
  (if (y : Int) = Int.tdiv rows 3 then welcomeRow cols else ['~']) ++
    eraseLineSeq ++
    (if (y : Int) < rows - 1 then crlf else [])

/-- `editorDrawRows`: the loop `for (y = 0; y < E.screenrows; y++)`. -/
def editorDrawRows (rows cols : Int) : List Char :=
  ((List.range rows.toNat).map (rowBytes rows cols)).flatten

/-- Decimal digits of a natural number (fuel-based so it computes). -/
def natCharsAux : Nat → Nat → List Char
  | 0, _ => []
  | fuel + 1, n =>
      if n < 10 then [Nat.digitChar n]
      else natCharsAux fuel (n / 10) ++ [Nat.digitChar (n % 10)]

/-- Decimal digits of `n`. -/
def natChars (n : Nat) : List Char := natCharsAux (n + 1) n

/-- `%d` rendering of a C `int`. -/
def intChars (i : Int) : List Char :=
  if i < 0 then '-' :: natChars i.natAbs else natChars i.toNat

/-- `snprintf(buf, sizeof(buf), "\x1b[%d;%dH", E.cy + 1, E.cx + 1)`: the
cursor-positioning sequence (at most 27 bytes, so the 32-byte buffer never
truncates it). -/
def posSeq (cy cx : Int) : List Char :=
  escCh :: '[' :: (intChars (cy + 1) ++ ';' :: intChars (cx + 1) ++ ['H'])

/-- The full byte content accumulated in the frame's append buffer by
`editorRefreshScreen()`, in append order. -/
def editorRefreshScreenBytes (E : EditorState) : List Char :=
  hideCursorSeq ++ homeSeq ++ editorDrawRows E.screenrows E.screencols ++
    posSeq E.cy E.cx ++ showCursorSeq

/-- The display writes performed by one `editorRefreshScreen()` call:
every `abAppend` targets the local buffer, and the single
`write(STDOUT_FILENO, ab.b, ab.len)` flushes it. -/
def editorRefreshScreen (E : EditorState) : List (List Char) :=
  [editorRefreshScreenBytes E]

/-- `leadsWith p l`: `p` is a prefix of `l`. -/
def leadsWith : List Char → List Char → Bool
  | [], _ => true
  | _ :: _, [] => false
  | a :: p, b :: l => a = b && leadsWith p l

/-- Number of positions of `l` at which the pattern `p` occurs. -/
def countSub (p : List Char) : List Char → Nat
  | [] => 0
  | c :: t => (if leadsWith p (c :: t) then 1 else 0) + countSub p t

/-! ## Window-size query (`getCursorPosition`, `getWindowSize`, `initEditor`) -/

/-- The response bytes collected by the `getCursorPosition` read loop:
at most `sizeof(buf) - 1 = 31` bytes, stopping before a `'R'` or when a
read delivers no byte. -/
def readResponse (input : List Char) : List Char :=
  (input.take 31).takeWhile (fun c => c ≠ 'R')

/-- Value of a digit string. -/
def digitsToNat (ds : List Char) : Nat :=
  ds.foldl (fun a c => a * 10 + (c.toNat - 48)) 0

/-- One `%d` conversion of `sscanf`: skip spaces, optional sign, at least
one digit; returns the value and the unconsumed rest. -/
def parseIntFrom (l : List Char) : Option (Int × List Char) :=
  let l1 := l.dropWhile (fun c => c = ' ')
  let neg : Bool := l1.head? = some '-'
  let l2 := if l1.head? = some '-' ∨ l1.head? = some '+' then l1.tail else l1
  let ds := l2.takeWhile Char.isDigit
  if ds.isEmpty then none
  else
    some (if neg then -(digitsToNat ds : Int) else (digitsToNat ds : Int),
      l2.dropWhile Char.isDigit)

/-- `sscanf(&buf[2], "%d;%d", rows, cols) == 2`. -/
def scanTwoInts (l : List Char) : Option (Int × Int) :=
  match parseIntFrom l with
  | none => none
  | some (r, rest) =>
      if rest.head? = some ';' then
        match parseIntFrom rest.tail with
        | none => none
        | some (c, _) => some (r, c)
      else none

/-- `getCursorPosition(int *rows, int *cols)`. `writeOk` is whether the
4-byte write of `"\x1b[6n"` succeeded; `input` is the byte stream the
terminal answers with. Mirroring the source, the final statement is
`return -1;` even when both checks and the parse succeed. -/
def getCursorPosition (writeOk : Bool) (input : List Char) : Int :=
  if writeOk = false then -1
  else
    let buf := readResponse input
    if ¬ (buf.head? = some escCh ∧ buf.tail.head? = some '[') then -1
    else
      match scanTwoInts (buf.drop 2) with
      | none => -1
      | some _ => -1

/-- `getWindowSize(int *rows, int *cols)`. `ws` is the `ioctl(TIOCGWINSZ)`
result (`none` = the ioctl failed), `moveOk` whether the 12-byte
cursor-to-bottom-right write succeeded, and the pair is `(return value,
reported (rows, cols))`. -/
def getWindowSize (ws : Option (Nat × Nat)) (moveOk cpOk : Bool)
    (input : List Char) : Int × Option (Int × Int) :=
  match ws with
  | some (wsRow, wsCol) =>
      if wsCol = 0 then
        if moveOk = false then (-1, none)
        else (getCursorPosition cpOk input, none)
      else (0, some ((wsRow : Int), (wsCol : Int)))
  | none =>
      if moveOk = false then (-1, none)
      else (getCursorPosition cpOk input, none)

/-- `initEditor()`: `E.cx = 0; E.cy = 0;` then
`if (getWindowSize(&E.screenrows, &E.screencols) == -1) die("getWindowSize");`.
`none` models the `die` exit; on the (never-taken) branch where the query
fails to report a size yet does not return −1, the out-parameters keep
their start-up value 0. -/
def initEditor (ws : Option (Nat × Nat)) (moveOk cpOk : Bool)
    (input : List Char) : Option EditorState :=
  let r := getWindowSize ws moveOk cpOk input
  if r.1 = -1 then none
  else
    match r.2 with
    | some (rows, cols) => some { cx := 0, cy := 0, screenrows := rows, screencols := cols }
    | none => some { cx := 0, cy := 0, screenrows := 0, screencols := 0 }

end Kilo

namespace Kilo

/-! ## Theorems -/

/-- C1: raw-mode restoration is an exact round trip. `enableRawMode`
captures the live terminal attribute set into `orig_termios` before any
mutation, `disableRawMode` reapplies exactly that captured set, and for
every sequence of enter/leave pairs the terminal's attribute set after the
last leave equals the set captured before the first enter. -/
theorem rawMode_roundTrip :
    ∀ (s : TermState) (n : Nat),
      (enableRawMode s).orig_termios = s.attrs ∧
      (rawModePair^[n + 1] s).attrs = s.attrs := by
  have hpair : ∀ s : TermState, rawModePair s = ⟨s.attrs, s.attrs⟩ := by
    intro s; rfl
  intro s n
  refine ⟨rfl, ?_⟩
  induction n generalizing s with
  | zero => rw [Function.iterate_one, hpair]
  | succ m ih =>
      rw [Function.iterate_succ_apply, ih (rawModePair s), hpair]

/-- C4: `editorReadKey` equals the reference decoder. A single non-escape
byte is returned verbatim; `ESC [ A/B/C/D` yield the directional events
(whose meanings under `editorMoveCursor` are up, down, right, left: row−1,
row+1, col+1, col−1); an escape whose two follow-up reads do not both
arrive yields the escape character alone; any other third byte after
`ESC [`, or a non-`[` second byte, yields the bare escape character. The
decoder is a total function, so no input crashes it. -/
theorem readKey_decoder :
    (∀ (c : Char) (next : List (Option Char)), c ≠ escCh → editorReadKey c next = c) ∧
    (∀ rest : List (Option Char),
      editorReadKey escCh (some '[' :: some 'A' :: rest) = 'j' ∧
      editorReadKey escCh (some '[' :: some 'B' :: rest) = 'k' ∧
      editorReadKey escCh (some '[' :: some 'C' :: rest) = 'l' ∧
      editorReadKey escCh (some '[' :: some 'D' :: rest) = 'h') ∧
    (∀ E : EditorState,
      editorMoveCursor 'j' E = { E with cy := E.cy - 1 } ∧
      editorMoveCursor 'k' E = { E with cy := E.cy + 1 } ∧
      editorMoveCursor 'l' E = { E with cx := E.cx + 1 } ∧
      editorMoveCursor 'h' E = { E with cx := E.cx - 1 }) ∧
    (editorReadKey escCh [] = escCh) ∧
    (∀ rest : List (Option Char), editorReadKey escCh (none :: rest) = escCh) ∧
    (∀ b : Char, editorReadKey escCh [some b] = escCh) ∧
    (∀ (b : Char) (rest : List (Option Char)),
      editorReadKey escCh (some b :: none :: rest) = escCh) ∧
    (∀ (b : Char) (rest : List (Option Char)),
      b ≠ 'A' → b ≠ 'B' → b ≠ 'C' → b ≠ 'D' →
      editorReadKey escCh (some '[' :: some b :: rest) = escCh) ∧
    (∀ (a b : Char) (rest : List (Option Char)), a ≠ '[' →
      editorReadKey escCh (some a :: some b :: rest) = escCh) := by
  refine ⟨?_, ?_, ?_, rfl, fun _ => rfl, fun _ => rfl, fun _ _ => rfl, ?_, ?_⟩
  · intro c next h
    simp [editorReadKey, h]
  · intro rest
    exact ⟨rfl, rfl, rfl, rfl⟩
  · intro E
    exact ⟨rfl, rfl, rfl, rfl⟩
  · intro b rest h1 h2 h3 h4
    simp [editorReadKey, h1, h2, h3, h4]
  · intro a b rest h
    simp [editorReadKey, h]

/-- Witness for C4 at concrete inputs. -/
theorem readKey_decoder_witness :
    editorReadKey 'x' [] = 'x' ∧
    editorReadKey escCh [some '[', some 'Z'] = escCh ∧
    editorReadKey escCh [some 'O', some 'A'] = escCh := by
  refine ⟨readKey_decoder.1 'x' [] (by decide), ?_, ?_⟩
  · exact readKey_decoder.2.2.2.2.2.2.2.1 'Z' []
      (by decide) (by decide) (by decide) (by decide)
  · exact readKey_decoder.2.2.2.2.2.2.2.2 'O' 'A' [] (by decide)

/-- C5 (claim fails on the code): at the initial state (cursor 0,0 on a
24×80 screen) pressing the up arrow (`ESC [ A`) drives `cy` to −1, outside
`[0, screenrows)` — `editorMoveCursor` never clamps. -/
theorem moveCursor_breaks_bounds_at_origin :
    (editorProcessKeypress (editorReadKey escCh [some '[', some 'A'])
        ⟨0, 0, 24, 80⟩).state.cy = -1 ∧
    ¬ (0 ≤ (editorProcessKeypress (editorReadKey escCh [some '[', some 'A'])
        ⟨0, 0, 24, 80⟩).state.cy) := by
  constructor <;> decide

/-- C6: every key event other than the quit key `CTRL_KEY('q')` and the
four directional events leaves the whole editor state unchanged, performs
no write and does not exit. -/
theorem processKeypress_frame :
    ∀ (c : Char) (E : EditorState),
      c ≠ CTRL_KEY 'q' → c ≠ 'h' → c ≠ 'j' → c ≠ 'k' → c ≠ 'l' →
      editorProcessKeypress c E = ⟨E, [], none⟩ := by
  intro c E h0 h1 h2 h3 h4
  unfold editorProcessKeypress
  rw [if_neg h0, if_neg (by simp [h1, h2, h3, h4])]

/-- Witness for C6: the printable byte `'x'` has no effect. -/
theorem processKeypress_frame_witness :
    editorProcessKeypress 'x' ⟨1, 2, 24, 80⟩ = ⟨⟨1, 2, 24, 80⟩, [], none⟩ :=
  processKeypress_frame 'x' ⟨1, 2, 24, 80⟩
    (by decide) (by decide) (by decide) (by decide) (by decide)

/-- C7: each directional key event changes exactly its cursor coordinate by
exactly one — up (`ESC [ A`) row−1, down (`ESC [ B`) row+1, right
(`ESC [ C`) col+1, left (`ESC [ D`) col−1 — with no clamping, leaving the
other coordinate and both screen dimensions unchanged, with no write and no
exit. -/
theorem arrowKeys_move_by_one :
    ∀ (E : EditorState) (rest : List (Option Char)),
      editorProcessKeypress (editorReadKey escCh (some '[' :: some 'A' :: rest)) E
        = ⟨{ E with cy := E.cy - 1 }, [], none⟩ ∧
      editorProcessKeypress (editorReadKey escCh (some '[' :: some 'B' :: rest)) E
        = ⟨{ E with cy := E.cy + 1 }, [], none⟩ ∧
      editorProcessKeypress (editorReadKey escCh (some '[' :: some 'C' :: rest)) E
        = ⟨{ E with cx := E.cx + 1 }, [], none⟩ ∧
      editorProcessKeypress (editorReadKey escCh (some '[' :: some 'D' :: rest)) E
        = ⟨{ E with cx := E.cx - 1 }, [], none⟩ := by
  intro E rest
  refine ⟨rfl, rfl, rfl, rfl⟩

/-- C8: `abAppend` is atomic and exact. When `realloc` fails it is a no-op
leaving the buffer completely unchanged; when it succeeds (returning a
block whose first `ab.len` bytes are the old contents, as `realloc`
guarantees), the new logical length is `old + new`, the previously written
bytes are preserved as a prefix, and the appended bytes occupy the end.
The model calls `realloc` once, mirroring the single `realloc` per call. -/
theorem abAppend_atomic :
    ∀ (ab : Abuf) (s : List Char) (newBlock : Option (List Char)),
      ab.len = ab.b.length →
      (∀ blk, newBlock = some blk →
        blk.length = ab.len + s.length ∧ blk.take ab.len = ab.b) →
      (newBlock = none → abAppend newBlock ab s = ab) ∧
      (∀ blk, newBlock = some blk →
        (abAppend newBlock ab s).b = ab.b ++ s ∧
        (abAppend newBlock ab s).len = ab.len + s.length ∧
        (abAppend newBlock ab s).b.take ab.b.length = ab.b ∧
        (abAppend newBlock ab s).b.drop ab.b.length = s) := by
  intro ab s newBlock hlen hblock
  constructor
  · intro h; subst h; rfl
  · intro blk h
    subst h
    obtain ⟨hL, hT⟩ := hblock blk rfl
    have hdrop : blk.drop (ab.len + s.length) = [] :=
      List.drop_eq_nil_of_le (by omega)
    have hb : (abAppend (some blk) ab s).b = ab.b ++ s := by
      simp [abAppend, hdrop, hT]
    refine ⟨hb, rfl, ?_, ?_⟩
    · rw [hb]; exact List.take_left _ _
    · rw [hb]; exact List.drop_left _ _

/-- Witness for C8: a successful append of `"bc"` to `"a"` and a failed
allocation on the same buffer. -/
theorem abAppend_atomic_witness :
    (abAppend (some ['a', 'x', 'y']) ⟨['a'], 1⟩ ['b', 'c']).b = ['a'] ++ ['b', 'c'] ∧
    abAppend none ⟨['a'], 1⟩ ['b', 'c'] = ⟨['a'], 1⟩ := by
  have h := abAppend_atomic ⟨['a'], 1⟩ ['b', 'c'] (some ['a', 'x', 'y'])
    (by decide)
    (by intro blk hb; injection hb with hb; subst hb; exact ⟨by decide, by decide⟩)
  have h2 := abAppend_atomic ⟨['a'], 1⟩ ['b', 'c'] none
    (by decide) (by intro blk hb; exact Option.noConfusion hb)
  exact ⟨(h.2 ['a', 'x', 'y'] rfl).1, h2.1 rfl⟩

/-- C3 (claim fails on the code): the first six bytes `editorRefreshScreen`
appends are `0x01 '[' '?' '2' '5' 'l'`, because the C literal `"\x1[?25l"`
parses the hex escape as byte 0x01 — not the VT100 cursor-hide sequence,
whose first byte must be the escape character 0x1B. The following three
bytes are the cursor-home sequence `ESC [ H` as claimed. -/
theorem refresh_first_bytes_not_escape :
    (∀ E : EditorState,
      (editorRefreshScreenBytes E).take 9 = hideCursorSeq ++ homeSeq) ∧
    hideCursorSeq = ['\x01', '[', '?', '2', '5', 'l'] ∧
    hideCursorSeq.head? = some '\x01' ∧
    ('\x01' : Char) ≠ escCh := by
  exact ⟨fun E => rfl, rfl, rfl, by decide⟩

/-- C9: with `screencols = 80` the banner text has length 29, the computed
padding is `(80 − 29) / 2 = 25`, and the banner row begins with exactly one
tilde (consuming one padding unit) followed by 24 spaces followed by the
29-byte banner; in the draw loop this is the row with `y == screenrows / 3`
(row 8 of a 24-row screen). -/
theorem banner_centering :
    welcome.length = 29 ∧
    Int.tdiv (80 - 29) 2 = 25 ∧
    welcomeRow 80 = '~' :: (List.replicate 24 ' ' ++ welcome) ∧
    rowBytes 24 80 8 = welcomeRow 80 ++ eraseLineSeq ++ crlf := by
  refine ⟨by decide, by decide, by decide, ?_⟩
  rfl

/-! ### Counting lemmas for the render output -/

/-- A pattern leads any list it is an actual prefix of. -/
theorem leadsWith_append_self (p t : List Char) : leadsWith p (p ++ t) = true := by
  induction p with
  | nil => rfl
  | cons a p ih => simp [leadsWith, ih]

/-- A match cannot start at a character that differs from the pattern head. -/
theorem countSub_cons_ne {p0 c : Char} (p t : List Char) (h : c ≠ p0) :
    countSub (p0 :: p) (c :: t) = countSub (p0 :: p) t := by
  have hl : leadsWith (p0 :: p) (c :: t) = false := by
    simp only [leadsWith, Bool.and_eq_false_iff]
    exact Or.inl (by simpa using Ne.symm h)
  simp [countSub, hl]

/-- Skipping a whole segment free of the pattern's head character. -/
theorem countSub_append_ne {p0 : Char} (p a b : List Char) (h : ∀ c ∈ a, c ≠ p0) :
    countSub (p0 :: p) (a ++ b) = countSub (p0 :: p) b := by
  induction a with
  | nil => rfl
  | cons c a ih =>
      rw [List.cons_append, countSub_cons_ne _ _ (h c (by simp))]
      exact ih (fun x hx => h x (by simp [hx]))

/-- Unfolding a potential match at the pattern's own head character. -/
theorem countSub_cons_self (p0 : Char) (p t : List Char) :
    countSub (p0 :: p) (p0 :: t) =
      (if leadsWith p t then 1 else 0) + countSub (p0 :: p) t := by
  simp [countSub, leadsWith]

/-- `Nat.digitChar` of a value below ten is a decimal digit. -/
theorem digitChar_isDigit {n : Nat} (h : n < 10) : (Nat.digitChar n).isDigit := by
  interval_cases n <;> decide

/-- Every character `natCharsAux` emits is a decimal digit. -/
theorem natCharsAux_digits :
    ∀ (fuel n : Nat), ∀ c ∈ natCharsAux fuel n, c.isDigit := by
  intro fuel
  induction fuel with
  | zero => intro n c hc; simp [natCharsAux] at hc
  | succ f ih =>
      intro n c hc
      rw [natCharsAux] at hc
      by_cases h : n < 10
      · rw [if_pos h] at hc
        simp only [List.mem_singleton] at hc
        exact hc ▸ digitChar_isDigit h
      · rw [if_neg h] at hc
        rcases List.mem_append.1 hc with hc | hc
        · exact ih _ c hc
        · simp only [List.mem_singleton] at hc
          exact hc ▸ digitChar_isDigit (Nat.mod_lt _ (by omega))

/-- `natChars` emits only decimal digits. -/
theorem natChars_digits (n : Nat) : ∀ c ∈ natChars n, c.isDigit :=
  natCharsAux_digits _ n

/-- `natChars` is never empty. -/
theorem natChars_ne_nil (n : Nat) : natChars n ≠ [] := by
  unfold natChars
  rw [natCharsAux]
  split
  · simp
  · simp

/-- Every character of `intChars` is a minus sign or a decimal digit. -/
theorem intChars_chars (i : Int) : ∀ c ∈ intChars i, c = '-' ∨ c.isDigit := by
  intro c hc
  unfold intChars at hc
  split at hc
  · rcases List.mem_cons.1 hc with hc | hc
    · exact Or.inl hc
    · exact Or.inr (natChars_digits _ c hc)
  · exact Or.inr (natChars_digits _ c hc)

/-- `intChars` starts with a minus sign or a decimal digit. -/
theorem intChars_head (i : Int) :
    ∃ d ds, intChars i = d :: ds ∧ (d = '-' ∨ d.isDigit) := by
  obtain ⟨d, ds, hds⟩ : ∃ d ds, intChars i = d :: ds := by
    unfold intChars
    split
    · exact ⟨'-', _, rfl⟩
    · rcases hn : natChars i.toNat with _ | ⟨d, ds⟩
      · exact absurd hn (natChars_ne_nil _)
      · exact ⟨d, ds, rfl⟩
  exact ⟨d, ds, hds, intChars_chars i d (by rw [hds]; simp)⟩

/-- A minus-or-digit character differs from any non-minus non-digit one. -/
theorem numChar_ne {d x : Char} (h : d = '-' ∨ d.isDigit)
    (hx1 : x ≠ '-') (hx2 : ¬ x.isDigit) : d ≠ x := by
  rcases h with h | h
  · subst h; exact fun e => hx1 e.symm
  · intro e; subst e; exact hx2 h

/-- The banner text contains neither the escape character nor a CR. -/
theorem welcome_chars : ∀ c ∈ welcome, c ≠ escCh ∧ c ≠ '\r' := by decide

/-- Characters of the banner row: a tilde, spaces, or banner text. -/
theorem welcomeRow_chars (cols : Int) :
    ∀ c ∈ welcomeRow cols, c = '~' ∨ c = ' ' ∨ c ∈ welcome := by
  intro c hc
  have hsub : ∀ (P : Prop) (inst : Decidable P),
      c ∈ (if P then ['~'] else ([] : List Char)) → c = '~' := by
    intro P inst h
    by_cases hP : P
    · rw [if_pos hP] at h; simpa using h
    · rw [if_neg hP] at h; simp at h
  simp only [welcomeRow, List.mem_append] at hc
  rcases hc with (hc | hc) | hc
  · exact Or.inl (hsub _ _ hc)
  · exact Or.inr (Or.inl (List.eq_of_mem_replicate hc))
  · exact Or.inr (Or.inr (List.take_subset _ _ hc))

/-- The banner row contains neither the escape character nor a CR. -/
theorem welcomeRow_ne (cols : Int) :
    ∀ c ∈ welcomeRow cols, c ≠ escCh ∧ c ≠ '\r' := by
  intro c hc
  rcases welcomeRow_chars cols c hc with h | h | h
  · subst h; exact ⟨by decide, by decide⟩
  · subst h; exact ⟨by decide, by decide⟩
  · exact welcome_chars c h

/-- The row body (banner or tilde) of row `y` is escape-free and CR-free. -/
theorem rowBody_ne (rows cols : Int) (y : Nat) :
    ∀ c ∈ (if ((y : Int) = Int.tdiv rows 3) then welcomeRow cols else ['~']),
      c ≠ escCh ∧ c ≠ '\r' := by
  intro c hc
  split at hc
  · exact welcomeRow_ne cols c hc
  · simp only [List.mem_singleton] at hc
    subst hc; exact ⟨by decide, by decide⟩

/-- The row tail (CRLF or nothing) of row `y` is escape-free. -/
theorem rowTail_no_esc (rows : Int) (y : Nat) :
    ∀ c ∈ (if ((y : Int) < rows - 1) then crlf else []), c ≠ escCh := by
  intro c hc
  split at hc
  · have hcr : crlf = ['\r', '\n'] := rfl
    rw [hcr] at hc
    rcases List.mem_cons.1 hc with h | h
    · subst h; decide
    · simp only [List.mem_singleton] at h; subst h; decide
  · simp at hc

/-- Each drawn row contributes exactly one erase-to-end-of-line sequence. -/
theorem rowB_erase (rows cols : Int) (y : Nat) (X : List Char) :
    countSub eraseLineSeq (rowBytes rows cols y ++ X) =
      1 + countSub eraseLineSeq X := by
  have her : eraseLineSeq = escCh :: '[' :: 'K' :: [] := rfl
  unfold rowBytes
  rw [her, List.append_assoc, List.append_assoc,
    countSub_append_ne _ _ _ (fun c hc => (rowBody_ne rows cols y c hc).1),
    List.cons_append, List.cons_append, List.cons_append, List.nil_append,
    countSub_cons_self]
  have h1 : leadsWith ('[' :: 'K' :: []) ('[' :: 'K' :: ((if ((y : Int) < rows - 1) then crlf else []) ++ X)) = true := by
    simp [leadsWith]
  rw [h1, if_pos rfl,
    countSub_cons_ne _ _ (by decide : ('[' : Char) ≠ escCh),
    countSub_cons_ne _ _ (by decide : ('K' : Char) ≠ escCh),
    countSub_append_ne _ _ _ (rowTail_no_esc rows y)]

/-- Each drawn row except the last contributes exactly one CRLF. -/
theorem rowB_crlf (rows cols : Int) (y : Nat) (X : List Char) :
    countSub crlf (rowBytes rows cols y ++ X) =
      (if (y : Int) < rows - 1 then 1 else 0) + countSub crlf X := by
  have hcr : crlf = '\r' :: '\n' :: [] := rfl
  unfold rowBytes
  rw [hcr, List.append_assoc, List.append_assoc,
    countSub_append_ne _ _ _ (fun c hc => (rowBody_ne rows cols y c hc).2),
    countSub_append_ne _ _ _
      (by decide : ∀ c ∈ eraseLineSeq, c ≠ '\r')]
  by_cases hy : (y : Int) < rows - 1
  · rw [if_pos hy, if_pos hy, List.cons_append, List.cons_append,
      List.nil_append, countSub_cons_self]
    have h1 : leadsWith ('\n' :: []) ('\n' :: X) = true := by simp [leadsWith]
    rw [h1, if_pos rfl, countSub_cons_ne _ _ (by decide : ('\n' : Char) ≠ '\r')]
  · rw [if_neg hy, if_neg hy, List.nil_append, Nat.zero_add]

/-- A drawn row never contains a sequence of the shape
`ESC [ d …` where `d` is a minus sign or a digit. -/
theorem rowB_pos (rows cols : Int) (y : Nat) (X : List Char) (d : Char)
    (ds : List Char) (hd : d = '-' ∨ d.isDigit) :
    countSub (escCh :: '[' :: d :: ds) (rowBytes rows cols y ++ X) =
      countSub (escCh :: '[' :: d :: ds) X := by
  have hdK : d ≠ 'K' := numChar_ne hd (by decide) (by decide)
  unfold rowBytes
  rw [List.append_assoc, List.append_assoc,
    countSub_append_ne _ _ _ (fun c hc => (rowBody_ne rows cols y c hc).1),
    show eraseLineSeq = escCh :: '[' :: 'K' :: [] from rfl,
    List.cons_append, List.cons_append, List.cons_append, List.nil_append,
    countSub_cons_self]
  have h1 : leadsWith ('[' :: d :: ds)
      ('[' :: 'K' :: ((if ((y : Int) < rows - 1) then crlf else []) ++ X)) = false := by
    simp only [leadsWith, Bool.and_eq_false_iff]
    exact Or.inr (Or.inl (by simpa using hdK))
  rw [h1, if_neg (by simp), Nat.zero_add,
    countSub_cons_ne _ _ (by decide : ('[' : Char) ≠ escCh),
    countSub_cons_ne _ _ (by decide : ('K' : Char) ≠ escCh),
    countSub_append_ne _ _ _ (rowTail_no_esc rows y)]

/-- A list free of the pattern's head character contains no occurrence. -/
theorem countSub_all_ne {p0 : Char} (p l : List Char) (h : ∀ c ∈ l, c ≠ p0) :
    countSub (p0 :: p) l = 0 := by
  induction l with
  | nil => rfl
  | cons c t ih =>
      rw [countSub_cons_ne _ _ (h c (by simp))]
      exact ih (fun x hx => h x (by simp [hx]))

/-- The draw loop emits one erase-to-end-of-line sequence per row. -/
theorem drawRows_erase (rows cols : Int) (X : List Char) :
    countSub eraseLineSeq (editorDrawRows rows cols ++ X) =
      rows.toNat + countSub eraseLineSeq X := by
  have main : ∀ ys : List Nat,
      countSub eraseLineSeq ((ys.map (rowBytes rows cols)).flatten ++ X) =
        ys.length + countSub eraseLineSeq X := by
    intro ys
    induction ys with
    | nil => simp
    | cons y ys ih =>
        simp only [List.map_cons, List.flatten_cons, List.append_assoc,
          List.length_cons]
        rw [rowB_erase, ih]
        omega
  unfold editorDrawRows
  rw [main]
  simp

/-- Counting `y < m` over `List.range n`. -/
theorem countP_range_lt (m n : Nat) :
    (List.range n).countP (fun y : Nat => decide (y < m)) = min m n := by
  induction n with
  | zero => simp
  | succ k ih =>
      rw [List.range_succ, List.countP_append, ih]
      by_cases h : k < m
      · have h1 : List.countP (fun y : Nat => decide (y < m)) [k] = 1 := by simp [h]
        rw [h1, Nat.min_eq_right (Nat.le_of_lt h), Nat.min_eq_right h]
      · have h1 : List.countP (fun y : Nat => decide (y < m)) [k] = 0 := by simp [h]
        rw [h1, Nat.min_eq_left (by omega), Nat.min_eq_left (by omega)]
        omega

/-- The draw loop emits a CRLF after every row but the last. -/
theorem drawRows_crlf (rows cols : Int) (X : List Char) :
    countSub crlf (editorDrawRows rows cols ++ X) =
      (rows.toNat - 1) + countSub crlf X := by
  have main : ∀ ys : List Nat,
      countSub crlf ((ys.map (rowBytes rows cols)).flatten ++ X) =
        ys.countP (fun y : Nat => decide ((y : Int) < rows - 1)) + countSub crlf X := by
    intro ys
    induction ys with
    | nil => simp
    | cons y ys ih =>
        simp only [List.map_cons, List.flatten_cons, List.append_assoc,
          List.countP_cons]
        rw [rowB_crlf, ih]
        by_cases hy : (y : Int) < rows - 1
        · simp only [hy, if_true, decide_eq_true_eq, if_pos]
          omega
        · simp only [hy, if_false, decide_eq_true_eq, if_neg, not_false_iff]
          omega
  unfold editorDrawRows
  rw [main]
  have hcp : (List.range rows.toNat).countP
      (fun y : Nat => decide ((y : Int) < rows - 1)) = rows.toNat - 1 := by
    rcases le_or_lt rows 0 with hr | hr
    · have h0 : rows.toNat = 0 := Int.toNat_of_nonpos hr
      rw [h0]
      simp
    · have hfun : (fun y : Nat => decide ((y : Int) < rows - 1)) =
          (fun y : Nat => decide (y < rows.toNat - 1)) := by
        funext y
        simp only [decide_eq_decide]
        omega
      rw [hfun, countP_range_lt]
      omega
  rw [hcp]

/-- No drawn row contains an `ESC [ d …` occurrence for minus-or-digit `d`. -/
theorem drawRows_pos (rows cols : Int) (X : List Char) (d : Char)
    (ds : List Char) (hd : d = '-' ∨ d.isDigit) :
    countSub (escCh :: '[' :: d :: ds) (editorDrawRows rows cols ++ X) =
      countSub (escCh :: '[' :: d :: ds) X := by
  have main : ∀ ys : List Nat,
      countSub (escCh :: '[' :: d :: ds) ((ys.map (rowBytes rows cols)).flatten ++ X) =
        countSub (escCh :: '[' :: d :: ds) X := by
    intro ys
    induction ys with
    | nil => simp
    | cons y ys ih =>
        simp only [List.map_cons, List.flatten_cons, List.append_assoc]
        rw [rowB_pos _ _ _ _ _ _ hd, ih]
  unfold editorDrawRows
  rw [main]

/-- One occurrence at the front, none elsewhere in the pattern's body. -/
theorem countSub_self_prefix (p0 : Char) (p t : List Char)
    (hnot : ∀ c ∈ p, c ≠ p0) :
    countSub (p0 :: p) ((p0 :: p) ++ t) = 1 + countSub (p0 :: p) t := by
  rw [List.cons_append, countSub_cons_self, leadsWith_append_self,
    if_pos rfl, countSub_append_ne _ _ _ hnot]

/-- The hide-cursor and home segments contain no erase sequence. -/
theorem head_skip_erase (rest : List Char) :
    countSub eraseLineSeq (hideCursorSeq ++ (homeSeq ++ rest)) =
      countSub eraseLineSeq rest := by
  rw [show eraseLineSeq = escCh :: '[' :: 'K' :: [] from rfl,
    countSub_append_ne _ _ _ (by decide : ∀ c ∈ hideCursorSeq, c ≠ escCh),
    show homeSeq = escCh :: '[' :: 'H' :: [] from rfl,
    List.cons_append, List.cons_append, List.cons_append, List.nil_append,
    countSub_cons_self]
  have h1 : leadsWith ('[' :: 'K' :: []) ('[' :: 'H' :: rest) = false := by
    simp [leadsWith]
  rw [h1, if_neg (by simp), Nat.zero_add,
    countSub_cons_ne _ _ (by decide : ('[' : Char) ≠ escCh),
    countSub_cons_ne _ _ (by decide : ('H' : Char) ≠ escCh)]

/-- The hide-cursor and home segments contain no CRLF. -/
theorem head_skip_crlf (rest : List Char) :
    countSub crlf (hideCursorSeq ++ (homeSeq ++ rest)) = countSub crlf rest := by
  rw [show crlf = '\r' :: '\n' :: [] from rfl,
    countSub_append_ne _ _ _ (by decide : ∀ c ∈ hideCursorSeq, c ≠ '\r'),
    countSub_append_ne _ _ _ (by decide : ∀ c ∈ homeSeq, c ≠ '\r')]

/-- The cursor-positioning and show-cursor tail contains no erase sequence. -/
theorem tail_erase (cy cx : Int) :
    countSub eraseLineSeq (posSeq cy cx ++ showCursorSeq) = 0 := by
  obtain ⟨d, ds, hds, hd⟩ := intChars_head (cy + 1)
  have hP : posSeq cy cx =
      escCh :: '[' :: d :: (ds ++ ';' :: (intChars (cx + 1) ++ ['H'])) := by
    unfold posSeq
    rw [hds]
    simp only [List.cons_append, List.append_assoc]
  rw [show eraseLineSeq = escCh :: '[' :: 'K' :: [] from rfl, hP,
    List.cons_append, List.cons_append, List.cons_append, countSub_cons_self]
  have h1 : leadsWith ('[' :: 'K' :: [])
      ('[' :: d :: ((ds ++ ';' :: (intChars (cx + 1) ++ ['H'])) ++ showCursorSeq)) = false := by
    have hdK : d ≠ 'K' := numChar_ne hd (by decide) (by decide)
    simp only [leadsWith, Bool.and_eq_false_iff]
    exact Or.inr (Or.inl (by simpa using fun e => hdK e.symm))
  rw [h1, if_neg (by simp), Nat.zero_add,
    countSub_cons_ne _ _ (by decide : ('[' : Char) ≠ escCh),
    countSub_cons_ne _ _ (numChar_ne hd (by decide) (by decide)),
    List.append_assoc,
    countSub_append_ne _ _ _ (fun c hc =>
      numChar_ne (intChars_chars _ c (hds ▸ List.mem_cons_of_mem d hc))
        (by decide) (by decide)),
    List.cons_append,
    countSub_cons_ne _ _ (by decide : (';' : Char) ≠ escCh),
    List.append_assoc,
    countSub_append_ne _ _ _ (fun c hc =>
      numChar_ne (intChars_chars _ c hc) (by decide) (by decide)),
    List.cons_append, List.nil_append,
    countSub_cons_ne _ _ (by decide : ('H' : Char) ≠ escCh)]
  decide

/-- The cursor-positioning and show-cursor tail contains no CRLF. -/
theorem tail_crlf (cy cx : Int) :
    countSub crlf (posSeq cy cx ++ showCursorSeq) = 0 := by
  rw [show crlf = '\r' :: '\n' :: [] from rfl]
  apply countSub_all_ne
  intro c hc
  rcases List.mem_append.1 hc with h | h
  · unfold posSeq at h
    rcases List.mem_cons.1 h with h | h
    · subst h; decide
    rcases List.mem_cons.1 h with h | h
    · subst h; decide
    rcases List.mem_append.1 h with h | h
    · rcases List.mem_append.1 h with h | h
      · exact numChar_ne (intChars_chars _ c h) (by decide) (by decide)
      · rcases List.mem_cons.1 h with h | h
        · subst h; decide
        · exact numChar_ne (intChars_chars _ c h) (by decide) (by decide)
    · simp only [List.mem_singleton] at h; subst h; decide
  · exact (by decide : ∀ c ∈ showCursorSeq, c ≠ '\r') c h

/-- The hide-cursor and home segments contain no positioning sequence. -/
theorem head_skip_pos (cy cx : Int) (rest : List Char) :
    countSub (posSeq cy cx) (hideCursorSeq ++ (homeSeq ++ rest)) =
      countSub (posSeq cy cx) rest := by
  obtain ⟨d, ds, hds, hd⟩ := intChars_head (cy + 1)
  have hP : posSeq cy cx =
      escCh :: '[' :: d :: (ds ++ ';' :: (intChars (cx + 1) ++ ['H'])) := by
    unfold posSeq
    rw [hds]
    simp only [List.cons_append, List.append_assoc]
  rw [hP,
    countSub_append_ne _ _ _ (by decide : ∀ c ∈ hideCursorSeq, c ≠ escCh),
    show homeSeq = escCh :: '[' :: 'H' :: [] from rfl,
    List.cons_append, List.cons_append, List.cons_append, List.nil_append,
    countSub_cons_self]
  have h1 : leadsWith ('[' :: d :: (ds ++ ';' :: (intChars (cx + 1) ++ ['H'])))
      ('[' :: 'H' :: rest) = false := by
    have hdH : d ≠ 'H' := numChar_ne hd (by decide) (by decide)
    simp only [leadsWith, Bool.and_eq_false_iff]
    exact Or.inr (Or.inl (by simpa using hdH))
  rw [h1, if_neg (by simp), Nat.zero_add,
    countSub_cons_ne _ _ (by decide : ('[' : Char) ≠ escCh),
    countSub_cons_ne _ _ (by decide : ('H' : Char) ≠ escCh)]

/-- The tail holds exactly one occurrence of the positioning sequence. -/
theorem tail_pos (cy cx : Int) :
    countSub (posSeq cy cx) (posSeq cy cx ++ showCursorSeq) = 1 := by
  obtain ⟨d, ds, hds, hd⟩ := intChars_head (cy + 1)
  have hP : posSeq cy cx =
      escCh :: '[' :: d :: (ds ++ ';' :: (intChars (cx + 1) ++ ['H'])) := by
    unfold posSeq
    rw [hds]
    simp only [List.cons_append, List.append_assoc]
  have hin : ∀ c ∈ ('[' :: d :: (ds ++ ';' :: (intChars (cx + 1) ++ ['H']))),
      c ≠ escCh := by
    intro c hc
    rcases List.mem_cons.1 hc with h | hc
    · subst h; decide
    rcases List.mem_cons.1 hc with h | hc
    · subst h; exact numChar_ne hd (by decide) (by decide)
    rcases List.mem_append.1 hc with h | hc
    · exact numChar_ne
        (intChars_chars _ c (hds ▸ List.mem_cons_of_mem d h)) (by decide) (by decide)
    rcases List.mem_cons.1 hc with h | hc
    · subst h; decide
    rcases List.mem_append.1 hc with h | hc
    · exact numChar_ne (intChars_chars _ c h) (by decide) (by decide)
    · simp only [List.mem_singleton] at hc; subst hc; decide
  have hshow : countSub
      (escCh :: '[' :: d :: (ds ++ ';' :: (intChars (cx + 1) ++ ['H'])))
      showCursorSeq = 0 := by
    rw [show showCursorSeq = escCh :: '[' :: '?' :: '2' :: '5' :: 'h' :: [] from rfl,
      countSub_cons_self]
    have h1 : leadsWith ('[' :: d :: (ds ++ ';' :: (intChars (cx + 1) ++ ['H'])))
        ('[' :: '?' :: '2' :: '5' :: 'h' :: []) = false := by
      have hdq : d ≠ '?' := numChar_ne hd (by decide) (by decide)
      simp only [leadsWith, Bool.and_eq_false_iff]
      exact Or.inr (Or.inl (by simpa using hdq))
    rw [h1, if_neg (by simp), Nat.zero_add,
      countSub_cons_ne _ _ (by decide : ('[' : Char) ≠ escCh),
      countSub_cons_ne _ _ (by decide : ('?' : Char) ≠ escCh),
      countSub_cons_ne _ _ (by decide : ('2' : Char) ≠ escCh),
      countSub_cons_ne _ _ (by decide : ('5' : Char) ≠ escCh),
      countSub_cons_ne _ _ (by decide : ('h' : Char) ≠ escCh)]
    rfl
  rw [hP, countSub_self_prefix _ _ _ hin, hshow]

/-- Erase-sequence count of a full refresh: one per screen row. -/
theorem refreshBytes_erase (E : EditorState) :
    countSub eraseLineSeq (editorRefreshScreenBytes E) = E.screenrows.toNat := by
  unfold editorRefreshScreenBytes
  simp only [List.append_assoc]
  rw [head_skip_erase, drawRows_erase, tail_erase]
  omega

/-- CRLF count of a full refresh: one per screen row except the last. -/
theorem refreshBytes_crlf (E : EditorState) :
    countSub crlf (editorRefreshScreenBytes E) = E.screenrows.toNat - 1 := by
  unfold editorRefreshScreenBytes
  simp only [List.append_assoc]
  rw [head_skip_crlf, drawRows_crlf, tail_crlf]
  omega

/-- Positioning-sequence count of a full refresh: exactly one. -/
theorem refreshBytes_pos (E : EditorState) :
    countSub (posSeq E.cy E.cx) (editorRefreshScreenBytes E) = 1 := by
  obtain ⟨d, ds, hds, hd⟩ := intChars_head (E.cy + 1)
  have hP : posSeq E.cy E.cx =
      escCh :: '[' :: d :: (ds ++ ';' :: (intChars (E.cx + 1) ++ ['H'])) := by
    unfold posSeq
    rw [hds]
    simp only [List.cons_append, List.append_assoc]
  have hdraw : countSub (posSeq E.cy E.cx)
      (editorDrawRows E.screenrows E.screencols ++ (posSeq E.cy E.cx ++ showCursorSeq)) =
      countSub (posSeq E.cy E.cx) (posSeq E.cy E.cx ++ showCursorSeq) := by
    rw [hP]
    exact drawRows_pos _ _ _ _ _ hd
  unfold editorRefreshScreenBytes
  simp only [List.append_assoc]
  rw [head_skip_pos, hdraw, tail_pos]

/-- C2: each `editorRefreshScreen` call performs exactly one display write,
whose byte sequence contains exactly `screenrows` erase-to-end-of-line
sequences (one terminating each row), a CRLF pair after every row except
the last (`screenrows − 1` of them), and exactly one occurrence of the
cursor-positioning escape sequence with 1-indexed coordinates
`(cy + 1, cx + 1)`. -/
theorem refresh_one_write_exact_counts :
    ∀ E : EditorState,
      editorRefreshScreen E = [editorRefreshScreenBytes E] ∧
      (editorRefreshScreen E).length = 1 ∧
      countSub eraseLineSeq (editorRefreshScreenBytes E) = E.screenrows.toNat ∧
      countSub crlf (editorRefreshScreenBytes E) = E.screenrows.toNat - 1 ∧
      countSub (posSeq E.cy E.cx) (editorRefreshScreenBytes E) = 1 :=
  fun E => ⟨rfl, rfl, refreshBytes_erase E, refreshBytes_crlf E, refreshBytes_pos E⟩

/-- Every control path of `getCursorPosition` ends in `return -1`. -/
theorem gcpAux (writeOk : Bool) (input : List Char) :
    getCursorPosition writeOk input = -1 := by
  unfold getCursorPosition
  split
  · rfl
  · dsimp only
    split
    · rfl
    · split <;> rfl

/-- C10: `getCursorPosition` returns −1 on every input stream — even on a
well-formed report `ESC [ 24 ; 80 R` whose two numbers parse — so the
cursor-position fallback of `getWindowSize` (ioctl failed, or reported
width 0) always returns −1 and `initEditor` always dies on it. -/
theorem windowSize_fallback_never_succeeds :
    (∀ (writeOk : Bool) (input : List Char), getCursorPosition writeOk input = -1) ∧
    (scanTwoInts ((readResponse "\x1b[24;80R".data).drop 2) = some (24, 80) ∧
      getCursorPosition true "\x1b[24;80R".data = -1) ∧
    (∀ (moveOk cpOk : Bool) (input : List Char),
      (getWindowSize none moveOk cpOk input).1 = -1 ∧
      initEditor none moveOk cpOk input = none) ∧
    (∀ (r : Nat) (moveOk cpOk : Bool) (input : List Char),
      (getWindowSize (some (r, 0)) moveOk cpOk input).1 = -1 ∧
      initEditor (some (r, 0)) moveOk cpOk input = none) := by
  have hgw1 : ∀ (moveOk cpOk : Bool) (input : List Char),
      (getWindowSize none moveOk cpOk input).1 = -1 := by
    intro moveOk cpOk input
    unfold getWindowSize
    cases moveOk with
    | false => rfl
    | true => simpa using gcpAux cpOk input
  have hgw2 : ∀ (r : Nat) (moveOk cpOk : Bool) (input : List Char),
      (getWindowSize (some (r, 0)) moveOk cpOk input).1 = -1 := by
    intro r moveOk cpOk input
    unfold getWindowSize
    cases moveOk with
    | false => rfl
    | true => simpa using gcpAux cpOk input
  refine ⟨gcpAux, ⟨by decide, gcpAux true _⟩, ?_, ?_⟩
  · intro moveOk cpOk input
    refine ⟨hgw1 moveOk cpOk input, ?_⟩
    unfold initEditor
    rw [if_pos (hgw1 moveOk cpOk input)]
  · intro r moveOk cpOk input
    refine ⟨hgw2 r moveOk cpOk input, ?_⟩
    unfold initEditor
    rw [if_pos (hgw2 r moveOk cpOk input)]

end Kilo
